import Mathlib

/-!
Verification of the web search / scrape / sanitize pipeline of
`src/deepresearch/webSearch.ts`, together with the chat status enum of the
drizzle migration.  Strings are modelled as `List Char`; each JavaScript
regular-expression replacement of `stripUrlsFromMarkdown` is realised as an
explicit left-to-right scan with the same (deterministic) matching behaviour
as the corresponding regex, and the fan-out logic of `searchOnWeb` is
modelled with an oracle assigning each search hit the outcome of its
Firecrawl scrape call.
-/

namespace DeepResearch

/-! ## Character classes (JavaScript `\s`, line terminators) -/

/-- The code points matched by JavaScript `\s` (also the set removed by
`String.prototype.trim`). -/
def jsSpaceCodes : List Nat :=
  [0x9, 0xa, 0xb, 0xc, 0xd, 0x20, 0xa0, 0x1680,
   0x2000, 0x2001, 0x2002, 0x2003, 0x2004, 0x2005, 0x2006, 0x2007,
   0x2008, 0x2009, 0x200a, 0x2028, 0x2029, 0x202f, 0x205f, 0x3000, 0xfeff]

/-- JavaScript whitespace predicate (`\s`). -/
def isSpace (c : Char) : Bool := jsSpaceCodes.contains c.toNat

/-- ECMAScript line terminators, relevant for the `m` flag of the
reference-definition regex. -/
def isLineTerm (c : Char) : Bool :=
  c == '\n' || c == '\r' || c.toNat == 0x2028 || c.toNat == 0x2029

/-! ## The five regex replacements of `stripUrlsFromMarkdown` -/

/-- The characters of the literal `http://`. -/
def httpPat : List Char := ['h', 't', 't', 'p', ':', '/', '/']

/-- The characters of the literal `https://`. -/
def httpsPat : List Char := ['h', 't', 't', 'p', 's', ':', '/', '/']

/-- Match the regex fragment `https?:\/\/` at the head, returning the
remaining characters. -/
def matchHttp (cs : List Char) : Option (List Char) :=
  if httpsPat.isPrefixOf cs then some (cs.drop 8)
  else if httpPat.isPrefixOf cs then some (cs.drop 7)
  else none

/-- The character class `[^\s)]` used for the URL part of inline links. -/
def urlChar (c : Char) : Bool := !isSpace c && c != ')'

/-- The fragment `([^\]]*)\]\(` of the link regexes: greedy link text up to
the first `]`, which must be followed by `(`. -/
def afterBracket (r : List Char) : Option (List Char × List Char) :=
  match r.dropWhile (fun c => c != ']') with
  | ']' :: '(' :: r2 => some (r.takeWhile (fun c => c != ']'), r2)
  | _ => none

/-- The fragment `[^\s)]+(?:\s+"[^"]*")?\)` closing an inline link: a
non-empty greedy URL run, an optional quoted title, then `)`.  The greedy
runs are the only candidates the regex backtracking can accept. -/
def closeLink (r3 : List Char) : Option (List Char) :=
  if (r3.takeWhile urlChar).isEmpty then none
  else
    match r3.dropWhile urlChar with
    | ')' :: r5 => some r5
    | c :: r4 =>
      if isSpace c then
        match (c :: r4).dropWhile isSpace with
        | '"' :: r7 =>
          match r7.dropWhile (fun c => c != '"') with
          | '"' :: ')' :: r9 => some r9
          | _ => none
        | _ => none
      else none
    | [] => none

/-- Match `\[([^\]]*)\]\((https?:\/\/[^\s)]+)(?:\s+"[^"]*")?\)` at the head of
the input; returns the captured link text and the rest of the input.  The
regex is deterministic: every quantified subpattern is a maximal run whose
shorter alternatives provably cannot be followed by the next literal. -/
def matchLinkCore (cs : List Char) : Option (List Char × List Char) :=
  match cs with
  | '[' :: r =>
    match afterBracket r with
    | some (text, r2) =>
      match matchHttp r2 with
      | some r3 =>
        match closeLink r3 with
        | some r9 => some (text, r9)
        | none => none
      | none => none
    | none => none
  | _ => none

/-- Match the image regex `!\[([^\]]*)\]\((https?:\/\/[^\s)]+)(?:\s+"[^"]*")?\)`. -/
def matchImage (cs : List Char) : Option (List Char × List Char) :=
  match cs with
  | '!' :: r => matchLinkCore r
  | _ => none

/-- Match the plain link regex (second replacement). -/
def matchLink (cs : List Char) : Option (List Char × List Char) :=
  matchLinkCore cs

/-- End-of-line test for the `$` anchor under the `m` flag. -/
def eolAt (cs : List Char) : Bool :=
  match cs with
  | [] => true
  | c :: _ => isLineTerm c

/-- The fragment `[^\]]+\]:` of the reference-definition regex: a non-empty
greedy label up to the first `]`, which must be followed by `:`. -/
def refHead (r : List Char) : Option (List Char) :=
  if (r.takeWhile (fun c => c != ']')).isEmpty then none
  else
    match r.dropWhile (fun c => c != ']') with
    | ']' :: ':' :: r2 => some r2
    | _ => none

/-- The fragment `(?:\s+"[^"]*")?$` ending a reference definition, applied
after the URL run.  The optional quoted title is tried first (the `?` is
greedy); if it fails, or the `$` anchor fails after it, the anchor is checked
right after the URL run. -/
def refEnd (r4 : List Char) : Option (List Char) :=
  match r4 with
  | [] => some []
  | c :: r5 =>
    if isSpace c then
      match (c :: r5).dropWhile isSpace with
      | '"' :: r7 =>
        match r7.dropWhile (fun c => c != '"') with
        | '"' :: r9 =>
          if eolAt r9 then some r9
          else if eolAt (c :: r5) then some (c :: r5) else none
        | _ => if eolAt (c :: r5) then some (c :: r5) else none
      | _ => if eolAt (c :: r5) then some (c :: r5) else none
    else none

/-- Match `\[[^\]]+\]:\s*https?:\/\/[^\s]+(?:\s+"[^"]*")?$` at a line start;
returns the rest of the input after the match (the replacement is empty). -/
def matchRef (cs : List Char) : Option (List Char) :=
  match cs with
  | '[' :: r =>
    match refHead r with
    | some r2 =>
      match matchHttp (r2.dropWhile isSpace) with
      | some r3 =>
        if (r3.takeWhile (fun c => !isSpace c)).isEmpty then none
        else refEnd (r3.dropWhile (fun c => !isSpace c))
      | none => none
    | none => none
  | _ => none

/-- Match `<(https?:\/\/[^>]+)>`; the replacement is empty. -/
def matchAngle (cs : List Char) : Option (List Char) :=
  match cs with
  | '<' :: r =>
    match matchHttp r with
    | some r2 =>
      if (r2.takeWhile (fun c => c != '>')).isEmpty then none
      else
        match r2.dropWhile (fun c => c != '>') with
        | '>' :: r4 => some r4
        | _ => none
    | none => none
  | _ => none

/-- Match `https?:\/\/[^\s]+`; the replacement is empty. -/
def matchBareUrl (cs : List Char) : Option (List Char) :=
  match matchHttp cs with
  | some rest =>
    if (rest.takeWhile (fun c => !isSpace c)).isEmpty then none
    else some (rest.dropWhile (fun c => !isSpace c))
  | none => none

/-- Global-replace scanner: at every position try the matcher; on a match
emit the replacement text and resume after the match (replacements are not
rescanned, as with `String.prototype.replace`), otherwise keep one character.
The fuel is the input length; every step consumes at least one input
character, so the fuel never runs out when started at `cs.length`. -/
def scanGo (m : List Char → Option (List Char × List Char)) :
    Nat → List Char → List Char
  | 0, cs => cs
  | _ + 1, [] => []
  | f + 1, c :: cs =>
    match m (c :: cs) with
    | some (txt, rest) => txt ++ scanGo m f rest
    | none => c :: scanGo m f cs

/-- Wrap a deleting matcher (empty replacement) for `scanGo`. -/
def asDelete (m : List Char → Option (List Char)) :
    List Char → Option (List Char × List Char) :=
  fun cs => (m cs).map (fun r => (([] : List Char), r))

/-- First replacement: embedded images. -/
def replaceImages (cs : List Char) : List Char :=
  scanGo matchImage cs.length cs

/-- Second replacement: inline links (link text kept). -/
def replaceLinks (cs : List Char) : List Char :=
  scanGo matchLink cs.length cs

/-- Scanner for the reference-definition replacement, tracking whether the
current position is a line start (the `^` anchor with the `m` flag). -/
def scanRefsGo : Nat → Bool → List Char → List Char
  | 0, _, cs => cs
  | _ + 1, _, [] => []
  | f + 1, atLS, c :: cs =>
    if atLS then
      match matchRef (c :: cs) with
      | some rest => scanRefsGo f false rest
      | none => c :: scanRefsGo f (isLineTerm c) cs
    else c :: scanRefsGo f (isLineTerm c) cs

/-- Third replacement: reference-style link definitions. -/
def replaceRefs (cs : List Char) : List Char :=
  scanRefsGo cs.length true cs

/-- Fourth replacement: angle-bracketed URLs. -/
def replaceAngles (cs : List Char) : List Char :=
  scanGo (asDelete matchAngle) cs.length cs

/-- Fifth replacement: bare URLs. -/
def replaceBareUrls (cs : List Char) : List Char :=
  scanGo (asDelete matchBareUrl) cs.length cs

/-- `String.prototype.trim`. -/
def trim (cs : List Char) : List Char :=
  ((cs.dropWhile isSpace).reverse.dropWhile isSpace).reverse

/-- The markdown stripping helper of `webSearch.ts`: the five replacements in
source order followed by `.trim()`. -/
def stripUrlsFromMarkdown (cs : List Char) : List Char :=
  trim (replaceBareUrls (replaceAngles (replaceRefs (replaceLinks (replaceImages cs)))))

/-- `stripUrlsFromMarkdown(rawText).substring(0, 80_000)` — the sanitizer
applied to scraped markdown (line 89 of `webSearch.ts`). -/
def sanitizeContent (cs : List Char) : List Char :=
  (stripUrlsFromMarkdown cs).take 80000

/-! ## Search results and the scrape fan-out -/

/-- A validated search result (the inner zod schema of `searchOnWeb`). -/
structure SearchResult where
  title : List Char
  url : List Char
  favicon : List Char
  extraSnippets : List (List Char)
  thumbnail : Option (List Char)
deriving DecidableEq

/-- The options record passed to `firecrawl.scrapeUrl` (lines 78–83). -/
structure ScrapeOptions where
  timeout : Nat
  maxAge : Nat
deriving DecidableEq

/-- The literal options of the `firecrawl.scrapeUrl` call:
`timeout: 15000, maxAge: 12 * 60 * 60 * 1000`. -/
def firecrawlScrapeOptions : ScrapeOptions :=
  { timeout := 15000, maxAge := 12 * 60 * 60 * 1000 }

/-- The possible outcomes of one `firecrawl.scrapeUrl` call: the promise may
reject (or time out), or resolve with a response carrying `success`,
`error` and `markdown` fields. -/
inductive ScrapeCallResult where
  | throws
  | returns (success : Bool) (error : Option (List Char)) (markdown : Option (List Char))
deriving DecidableEq

/-- JavaScript truthiness of the `error` field checked by
`if (scrapeResponse.error)`: absent and empty-string errors are falsy. -/
def errorTruthy : Option (List Char) → Bool
  | none => false
  | some s => !s.isEmpty

/-- The `scrapedText` computed by `scrapeSearchResult` for one call outcome:
a rejected promise is caught (empty text), a truthy `error` field is thrown
and caught (empty text), on `success` the markdown is sanitized, and on
`success: false` the text stays empty. -/
def scrapeContent : ScrapeCallResult → List Char
  | .throws => []
  | .returns success err markdown =>
    if errorTruthy err then []
    else if success then sanitizeContent (markdown.getD [])
    else []

/-- The record returned by `scrapeSearchResult`. -/
structure ScrapedResult where
  title : List Char
  link : List Char
  content : List Char
deriving DecidableEq

/-- `scrapeSearchResult`, parameterised by the `firecrawl.scrapeUrl`
collaborator (an oracle from URL and options to a call outcome): never
rejects — every outcome, including a thrown exception, yields a
`{title, link, content}` record, and the call always passes
`firecrawlScrapeOptions`. -/
def scrapeSearchResult (scrapeUrl : List Char → ScrapeOptions → ScrapeCallResult)
    (sr : SearchResult) : ScrapedResult :=
  { title := sr.title, link := sr.url,
    content := scrapeContent (scrapeUrl sr.url firecrawlScrapeOptions) }

/-- The tail of `searchOnWeb` (lines 102–114): settle every scrape task,
keep the fulfilled ones (all of them — `scrapeSearchResult` catches), drop
results with empty content, and return `[]` when nothing remains. -/
def searchOnWebResults (hits : List SearchResult)
    (scrapeUrl : List Char → ScrapeOptions → ScrapeCallResult) : List ScrapedResult :=
  let settled := hits.map (fun h => scrapeSearchResult scrapeUrl h)
  let results := settled.filter (fun r => !r.content.isEmpty)
  if results.length = 0 then [] else results

/-! ## The Brave response parsing of `searchOnWeb` (lines 28–49) -/

/-- A raw entry of `web.results` as seen by the zod schema.  `none` on a
required field stands for a missing or wrongly-typed field;
`thumbnailOriginal = some none` stands for a present but invalid
`thumbnail` object. -/
structure BraveRawHit where
  url : Option (List Char)
  title : Option (List Char)
  metaUrlFavicon : Option (List Char)
  extraSnippets : Option (List (List Char))
  thumbnailOriginal : Option (Option (List Char))
deriving DecidableEq

/-- Validation of a single entry against the zod object schema:
`url`, `title` and `meta_url.favicon` are required strings,
`extra_snippets` defaults to `[]`, `thumbnail` is optional but must be
well-formed when present. -/
def parseHit (h : BraveRawHit) : Option SearchResult :=
  match h.url, h.title, h.metaUrlFavicon with
  | some u, some t, some f =>
    match h.thumbnailOriginal with
    | none =>
      some { title := t, url := u, favicon := f,
             extraSnippets := h.extraSnippets.getD [], thumbnail := none }
    | some none => none
    | some (some s) =>
      some { title := t, url := u, favicon := f,
             extraSnippets := h.extraSnippets.getD [], thumbnail := some s }
  | _, _, _ => none

/-- `z.array(...).parse`: the whole array parses only if every entry does. -/
def parseHits : List BraveRawHit → Option (List SearchResult)
  | [] => some []
  | h :: t =>
    match parseHit h, parseHits t with
    | some x, some xs => some (x :: xs)
    | _, _ => none

/-- The top level of the Brave response: `web.results` present or not. -/
structure BraveResponse where
  web : Option (List BraveRawHit)
deriving DecidableEq

/-- The `.parse` call of `searchOnWeb`: a missing `web.results` is a
top-level shape mismatch and any invalid entry makes the whole parse throw
(modelled as `Except.error`). -/
def parseSearchResponse (r : BraveResponse) : Except Unit (List SearchResult) :=
  match r.web with
  | none => .error ()
  | some hits =>
    match parseHits hits with
    | none => .error ()
    | some out => .ok out

/-! ## The chat status enum of the drizzle migration -/

/-- The postgres enum
`CREATE TYPE "public"."status" AS ENUM('questions','pending','processing','completed')`. -/
inductive ChatStatus where
  | questions
  | pending
  | processing
  | completed
deriving DecidableEq

/-- The column default `DEFAULT 'questions'`. -/
def statusDefault : ChatStatus := ChatStatus.questions

/-- Position of a status in the declared enum order. -/
def statusRank : ChatStatus → Nat
  | .questions => 0
  | .pending => 1
  | .processing => 2
  | .completed => 3

/-- Modelled from the spec: the repository files under `src/` contain no
orchestrator code updating the status column, so the lifecycle transition
relation is taken from the spec sentence "questions → pending → processing →
completed ... no backward transitions". -/
def statusStep (s t : ChatStatus) : Bool :=
  match s, t with
  | .questions, .pending => true
  | .pending, .processing => true
  | .processing, .completed => true
  | _, _ => false

/-! ## Occurrence predicates -/

/-- `cs` contains `http://` or `https://` as a substring. -/
def HttpSub (cs : List Char) : Prop :=
  ∃ pre suf, cs = pre ++ httpPat ++ suf ∨ cs = pre ++ httpsPat ++ suf

/-- `cs` contains `http://` or `https://` followed by at least one
non-whitespace character. -/
def UrlOcc (cs : List Char) : Prop :=
  ∃ pre c suf,
    (cs = pre ++ httpPat ++ c :: suf ∨ cs = pre ++ httpsPat ++ c :: suf) ∧
    isSpace c = false

/-- Executable check that `cs` contains no `http://` and no `https://`. -/
def noHttp : List Char → Bool
  | [] => true
  | c :: cs =>
    !(httpPat.isPrefixOf (c :: cs)) && !(httpsPat.isPrefixOf (c :: cs)) && noHttp cs

/-- Whether a list starts with a non-whitespace character. -/
def headNonWs : List Char → Bool
  | [] => false
  | c :: _ => !isSpace c

/-- Executable check for `UrlOcc`: some position starts with `http://` or
`https://` followed by a non-whitespace character. -/
def hasUrlOcc : List Char → Bool
  | [] => false
  | c :: cs =>
    (httpPat.isPrefixOf (c :: cs) && headNonWs ((c :: cs).drop 7)) ||
    (httpsPat.isPrefixOf (c :: cs) && headNonWs ((c :: cs).drop 8)) ||
    hasUrlOcc cs

/-! ## Concrete values used in witnesses and counterexamples -/

/-- A well-formed Brave search hit. -/
def braveGoodHit : BraveRawHit :=
  { url := some "https://e.com".data, title := some "T".data,
    metaUrlFavicon := some "i.png".data, extraSnippets := none,
    thumbnailOriginal := none }

/-- A Brave search hit whose `url` field is missing (or not a string). -/
def braveBadHit : BraveRawHit :=
  { url := none, title := some "B".data,
    metaUrlFavicon := some "i".data, extraSnippets := none,
    thumbnailOriginal := none }

/-- A validated search result. -/
def exHit : SearchResult :=
  { title := "Example".data, url := "https://e.com/a".data, favicon := "f".data,
    extraSnippets := [], thumbnail := none }

/-- A second validated search result. -/
def exHit2 : SearchResult :=
  { title := "Other".data, url := "https://e.org/b".data, favicon := "f".data,
    extraSnippets := [], thumbnail := none }

/-- A scrape collaborator whose every call fails (promise rejection). -/
def exScrapeAllFail : List Char → ScrapeOptions → ScrapeCallResult :=
  fun _ _ => ScrapeCallResult.throws

/-- A scrape collaborator for which the first example URL succeeds with
markdown content and every other URL times out. -/
def exScrapeMixed : List Char → ScrapeOptions → ScrapeCallResult :=
  fun url _ =>
    if url = "https://e.com/a".data then
      ScrapeCallResult.returns true none (some "hello world".data)
    else ScrapeCallResult.throws

/-- The non-idempotence input for the sanitizer: the angle-bracket rule
assembles a new `<http:// q>` angle URL out of the fragments left by
deleting `<https://a>`, which only a second application removes. -/
def idemCounterInput : List Char := "<htt<https://a>p:// q>".data

theorem httpSub_cons {c : Char} {cs : List Char} (h : HttpSub cs) : HttpSub (c :: cs) := by
  obtain ⟨pre, suf, h | h⟩ := h
  · exact ⟨c :: pre, suf, Or.inl (by simp [h])⟩
  · exact ⟨c :: pre, suf, Or.inr (by simp [h])⟩

theorem httpSub_append_left {cs : List Char} (a : List Char) (h : HttpSub cs) :
    HttpSub (a ++ cs) := by
  induction a with
  | nil => exact h
  | cons x t ih => exact httpSub_cons ih

theorem httpSub_append_right {cs : List Char} (b : List Char) (h : HttpSub cs) :
    HttpSub (cs ++ b) := by
  obtain ⟨pre, suf, h | h⟩ := h
  · exact ⟨pre, suf ++ b, Or.inl (by simp [h])⟩
  · exact ⟨pre, suf ++ b, Or.inr (by simp [h])⟩

theorem httpSub_infix_closed {x y : List Char} (h : x <:+: y) (hx : HttpSub x) : HttpSub y := by
  obtain ⟨a, b, rfl⟩ := h
  rw [List.append_assoc]
  exact httpSub_append_left a (httpSub_append_right b hx)

theorem urlOcc_cons {c : Char} {cs : List Char} (h : UrlOcc cs) : UrlOcc (c :: cs) := by
  obtain ⟨pre, d, suf, h | h, hd⟩ := h
  · exact ⟨c :: pre, d, suf, Or.inl (by simp [h]), hd⟩
  · exact ⟨c :: pre, d, suf, Or.inr (by simp [h]), hd⟩

theorem urlOcc_append_left {cs : List Char} (a : List Char) (h : UrlOcc cs) :
    UrlOcc (a ++ cs) := by
  induction a with
  | nil => exact h
  | cons x t ih => exact urlOcc_cons ih

theorem urlOcc_append_right {cs : List Char} (b : List Char) (h : UrlOcc cs) :
    UrlOcc (cs ++ b) := by
  obtain ⟨pre, d, suf, h | h, hd⟩ := h
  · exact ⟨pre, d, suf ++ b, Or.inl (by simp [h]), hd⟩
  · exact ⟨pre, d, suf ++ b, Or.inr (by simp [h]), hd⟩

theorem urlOcc_infix_closed {x y : List Char} (h : x <:+: y) (hx : UrlOcc x) : UrlOcc y := by
  obtain ⟨a, b, rfl⟩ := h
  rw [List.append_assoc]
  exact urlOcc_append_left a (urlOcc_append_right b hx)

theorem noHttp_not_httpSub {cs : List Char} (h : noHttp cs = true) : ¬ HttpSub cs := by
  induction cs with
  | nil =>
    rintro ⟨pre, suf, habs | habs⟩ <;> simp [httpPat, httpsPat] at habs
  | cons c t ih =>
    rw [noHttp] at h
    simp only [Bool.and_eq_true, Bool.not_eq_true'] at h
    obtain ⟨⟨h1, h2⟩, h3⟩ := h
    rintro ⟨pre, suf, habs | habs⟩
    · match pre, habs with
      | [], habs =>
        have : httpPat.isPrefixOf (c :: t) = true := by
          rw [List.isPrefixOf_iff_prefix]
          exact ⟨suf, by simp [habs]⟩
        rw [this] at h1; exact absurd h1 (by simp)
      | p :: pre', habs =>
        have htail : t = pre' ++ httpPat ++ suf := by
          simpa using congrArg List.tail habs
        exact ih h3 ⟨pre', suf, Or.inl htail⟩
    · match pre, habs with
      | [], habs =>
        have : httpsPat.isPrefixOf (c :: t) = true := by
          rw [List.isPrefixOf_iff_prefix]
          exact ⟨suf, by simp [habs]⟩
        rw [this] at h2; exact absurd h2 (by simp)
      | p :: pre', habs =>
        have htail : t = pre' ++ httpsPat ++ suf := by
          simpa using congrArg List.tail habs
        exact ih h3 ⟨pre', suf, Or.inr htail⟩

/-! ## Small list facts used repeatedly -/

theorem dropWhile_head_false {p : Char → Bool} {l r : List Char} {c : Char}
    (h : l.dropWhile p = c :: r) : p c = false := by
  induction l with
  | nil => simp [List.dropWhile] at h
  | cons a t ih =>
    rw [List.dropWhile_cons] at h
    by_cases hp : p a = true
    · rw [if_pos hp] at h; exact ih h
    · rw [if_neg hp] at h
      cases h
      simpa using hp

theorem takeWhile_eq_self_append {p : Char → Bool} {l : List Char} {c : Char}
    (hl : ∀ x ∈ l, p x = true) (hc : p c = false) (r : List Char) :
    (l ++ c :: r).takeWhile p = l := by
  rw [List.takeWhile_append_of_pos hl, List.takeWhile_cons_of_neg (by simp [hc])]
  simp

theorem dropWhile_eq_cons_rest {p : Char → Bool} {l : List Char} {c : Char}
    (hl : ∀ x ∈ l, p x = true) (hc : p c = false) (r : List Char) :
    (l ++ c :: r).dropWhile p = c :: r := by
  rw [List.dropWhile_append_of_pos hl, List.dropWhile_cons_of_neg (by simp [hc])]

/-! ## trim -/

theorem trim_infix_self (cs : List Char) : trim cs <:+: cs := by
  have h1 : cs.dropWhile isSpace <:+ cs := List.dropWhile_suffix isSpace
  have h2 : ((cs.dropWhile isSpace).reverse.dropWhile isSpace).reverse <+:
      cs.dropWhile isSpace := by
    rw [← List.reverse_suffix, List.reverse_reverse]
    exact List.dropWhile_suffix isSpace
  exact h2.isInfix.trans h1.isInfix

theorem trim_eq_self {cs : List Char}
    (h1 : cs.dropWhile isSpace = cs)
    (h2 : cs.reverse.dropWhile isSpace = cs.reverse) : trim cs = cs := by
  rw [trim, h1, h2, List.reverse_reverse]

theorem dropWhile_eq_self_of_head {p : Char → Bool} {c : Char} {r : List Char}
    (h : p c = false) : (c :: r).dropWhile p = c :: r := by
  rw [List.dropWhile_cons_of_neg (by simp [h])]

/-! ## Matcher decomposition lemmas -/

theorem matchHttp_some {cs r : List Char} (h : matchHttp cs = some r) :
    cs = httpPat ++ r ∨ cs = httpsPat ++ r := by
  unfold matchHttp at h
  split_ifs at h with h1 h2
  · obtain ⟨t, ht⟩ := List.isPrefixOf_iff_prefix.mp h1
    injection h with h'
    right
    rw [← ht, ← h', ← ht]
    congr 1
  · obtain ⟨t, ht⟩ := List.isPrefixOf_iff_prefix.mp h2
    injection h with h'
    left
    rw [← ht, ← h', ← ht]
    congr 1

theorem matchHttp_http (t : List Char) : matchHttp (httpPat ++ t) = some t := by
  unfold matchHttp
  have h1 : httpsPat.isPrefixOf (httpPat ++ t) = false := by
    simp [httpPat, httpsPat, List.isPrefixOf]
  have h2 : httpPat.isPrefixOf (httpPat ++ t) = true :=
    List.isPrefixOf_iff_prefix.mpr ⟨t, rfl⟩
  rw [h1, if_neg (by simp), h2, if_pos rfl]
  congr 1

theorem matchHttp_https (t : List Char) : matchHttp (httpsPat ++ t) = some t := by
  unfold matchHttp
  have h1 : httpsPat.isPrefixOf (httpsPat ++ t) = true :=
    List.isPrefixOf_iff_prefix.mpr ⟨t, rfl⟩
  rw [h1, if_pos rfl]
  congr 1

theorem matchHttp_httpSub {cs r : List Char} (h : matchHttp cs = some r) : HttpSub cs := by
  rcases matchHttp_some h with h' | h'
  · exact ⟨[], r, Or.inl (by simpa using h')⟩
  · exact ⟨[], r, Or.inr (by simpa using h')⟩

theorem afterBracket_some {r text r2 : List Char}
    (h : afterBracket r = some (text, r2)) : r = text ++ ']' :: '(' :: r2 := by
  unfold afterBracket at h
  split at h
  next r2' heq =>
    injection h with h'
    injection h' with ht hr
    subst ht; subst hr
    conv_lhs => rw [← List.takeWhile_append_dropWhile (p := fun c => c != ']') (l := r)]
    rw [heq]
  next => exact absurd h (by simp)

theorem matchLinkCore_httpSub {cs : List Char} {p : List Char × List Char}
    (h : matchLinkCore cs = some p) : HttpSub cs := by
  unfold matchLinkCore at h
  split at h
  next r =>
    split at h
    next text r2 hab =>
      split at h
      next r3 hhttp =>
        have hr := afterBracket_some hab
        have hsub : HttpSub r2 := matchHttp_httpSub hhttp
        have : HttpSub r := by
          rw [hr]
          exact httpSub_append_left text (httpSub_cons (httpSub_cons hsub))
        exact httpSub_cons this
      next => exact absurd h (by simp)
    next => exact absurd h (by simp)
  next => exact absurd h (by simp)

theorem matchImage_httpSub {cs : List Char} {p : List Char × List Char}
    (h : matchImage cs = some p) : HttpSub cs := by
  unfold matchImage at h
  split at h
  next r => exact httpSub_cons (matchLinkCore_httpSub h)
  next => exact absurd h (by simp)

theorem refHead_some {r r2 : List Char} (h : refHead r = some r2) :
    ∃ label, r = label ++ ']' :: ':' :: r2 := by
  unfold refHead at h
  split_ifs at h with hl
  split at h
  next r2' heq =>
    injection h with h'
    subst h'
    refine ⟨r.takeWhile (fun c => c != ']'), ?_⟩
    conv_lhs => rw [← List.takeWhile_append_dropWhile (p := fun c => c != ']') (l := r)]
    rw [heq]
  next => exact absurd h (by simp)

theorem matchRef_httpSub {cs rest : List Char} (h : matchRef cs = some rest) :
    HttpSub cs := by
  unfold matchRef at h
  split at h
  next r =>
    split at h
    next r2 hrh =>
      split at h
      next r3 hhttp =>
        obtain ⟨label, hlab⟩ := refHead_some hrh
        have hsub2 : HttpSub (r2.dropWhile isSpace) := matchHttp_httpSub hhttp
        have hsub2' : HttpSub r2 := by
          conv => rw [← List.takeWhile_append_dropWhile (p := isSpace) (l := r2)]
          exact httpSub_append_left _ hsub2
        have : HttpSub r := by
          rw [hlab]
          exact httpSub_append_left label (httpSub_cons (httpSub_cons hsub2'))
        exact httpSub_cons this
      next => exact absurd h (by simp)
    next => exact absurd h (by simp)
  next => exact absurd h (by simp)

theorem matchAngle_httpSub {cs rest : List Char} (h : matchAngle cs = some rest) :
    HttpSub cs := by
  unfold matchAngle at h
  split at h
  next r =>
    split at h
    next r2 hhttp => exact httpSub_cons (matchHttp_httpSub hhttp)
    next => exact absurd h (by simp)
  next => exact absurd h (by simp)

theorem matchBareUrl_httpSub {cs rest : List Char} (h : matchBareUrl cs = some rest) :
    HttpSub cs := by
  unfold matchBareUrl at h
  split at h
  next r hhttp => exact matchHttp_httpSub hhttp
  next => exact absurd h (by simp)

theorem matchBareUrl_some_decomp {cs rest : List Char} (h : matchBareUrl cs = some rest) :
    ∃ t, (cs = httpPat ++ t ∨ cs = httpsPat ++ t) ∧
      rest = t.dropWhile (fun c => !isSpace c) := by
  unfold matchBareUrl at h
  split at h
  next t hhttp =>
    split_ifs at h with hrun
    injection h with h'
    exact ⟨t, matchHttp_some hhttp, h'.symm⟩
  next => exact absurd h (by simp)

theorem matchBareUrl_rest_space {cs rest : List Char} (h : matchBareUrl cs = some rest) :
    rest = [] ∨ ∃ d r, rest = d :: r ∧ isSpace d = true := by
  obtain ⟨t, _, hrest⟩ := matchBareUrl_some_decomp h
  cases hr : t.dropWhile (fun c => !isSpace c) with
  | nil => left; rw [hrest, hr]
  | cons d r =>
    right
    refine ⟨d, r, by rw [hrest, hr], ?_⟩
    have := dropWhile_head_false hr
    simpa using this

theorem matchBareUrl_shrink {cs rest : List Char} (h : matchBareUrl cs = some rest) :
    rest.length < cs.length := by
  obtain ⟨t, ht, hrest⟩ := matchBareUrl_some_decomp h
  have h1 : rest.length ≤ t.length := by
    rw [hrest]; exact (List.dropWhile_suffix _).length_le
  rcases ht with ht | ht <;> rw [ht] <;> simp [httpPat, httpsPat] <;> omega

theorem matchBareUrl_head {c : Char} {cs rest : List Char}
    (h : matchBareUrl (c :: cs) = some rest) : c = 'h' := by
  obtain ⟨t, ht | ht, _⟩ := matchBareUrl_some_decomp h <;>
    simpa [httpPat, httpsPat] using congrArg (fun l => l.head?) ht

theorem matchBareUrl_pos_http {d : Char} {t : List Char} (hd : isSpace d = false) :
    matchBareUrl (httpPat ++ d :: t) ≠ none := by
  simp only [matchBareUrl, matchHttp_http]
  rw [List.takeWhile_cons_of_pos (by simp [hd])]
  simp

theorem matchBareUrl_pos_https {d : Char} {t : List Char} (hd : isSpace d = false) :
    matchBareUrl (httpsPat ++ d :: t) ≠ none := by
  simp only [matchBareUrl, matchHttp_https]
  rw [List.takeWhile_cons_of_pos (by simp [hd])]
  simp

/-! ## Scanner lemmas -/

theorem scanGo_nil {m : List Char → Option (List Char × List Char)} (f : Nat) :
    scanGo m f [] = [] := by
  cases f <;> rfl

theorem scanGo_id {m : List Char → Option (List Char × List Char)} {cs : List Char}
    (H : ∀ xs, xs <:+ cs → m xs = none) : ∀ f, scanGo m f cs = cs := by
  induction cs with
  | nil => intro f; exact scanGo_nil f
  | cons c t ih =>
    intro f
    cases f with
    | zero => rfl
    | succ f =>
      rw [scanGo, H (c :: t) (List.suffix_refl _)]
      rw [ih (fun xs hx => H xs (hx.trans (List.suffix_cons c t)))]

theorem scanGo_head_all {m : List Char → Option (List Char × List Char)}
    {c : Char} {cs txt : List Char} (h : m (c :: cs) = some (txt, [])) (f : Nat) :
    scanGo m (f + 1) (c :: cs) = txt := by
  rw [scanGo, h]
  simp [scanGo_nil]

theorem scanRefsGo_id {cs : List Char}
    (H : ∀ xs, xs <:+ cs → matchRef xs = none) : ∀ f b, scanRefsGo f b cs = cs := by
  induction cs with
  | nil => intro f b; cases f <;> rfl
  | cons c t ih =>
    intro f b
    cases f with
    | zero => rfl
    | succ f =>
      have ht := ih (fun xs hx => H xs (hx.trans (List.suffix_cons c t)))
      cases b with
      | false =>
        rw [scanRefsGo]
        simp [ht]
      | true =>
        rw [scanRefsGo, H (c :: t) (List.suffix_refl _)]
        simp [ht]

theorem asDelete_none {m : List Char → Option (List Char)} {xs : List Char}
    (h : m xs = none) : asDelete m xs = none := by
  rw [asDelete, h]; rfl

/-- A matcher that implies an occurrence fails everywhere in an
occurrence-free string. -/
theorem match_none_of_noSub {m : List Char → Option (List Char × List Char)}
    (hm : ∀ xs p, m xs = some p → HttpSub xs) {cs : List Char}
    (h : ¬ HttpSub cs) : ∀ xs, xs <:+ cs → m xs = none := by
  intro xs hx
  cases hmx : m xs with
  | none => rfl
  | some p => exact absurd (httpSub_infix_closed hx.isInfix (hm xs p hmx)) h

/-! ## Pass identity on URL-free input -/

theorem replaceImages_eq_self {cs : List Char} (h : ¬ HttpSub cs) :
    replaceImages cs = cs :=
  scanGo_id (match_none_of_noSub (fun _ _ => matchImage_httpSub) h) _

theorem replaceLinks_eq_self {cs : List Char} (h : ¬ HttpSub cs) :
    replaceLinks cs = cs :=
  scanGo_id (match_none_of_noSub (fun _ _ => matchLinkCore_httpSub) h) _

theorem replaceRefs_eq_self {cs : List Char} (h : ¬ HttpSub cs) :
    replaceRefs cs = cs := by
  refine scanRefsGo_id (fun xs hx => ?_) _ _
  cases hmx : matchRef xs with
  | none => rfl
  | some p => exact absurd (httpSub_infix_closed hx.isInfix (matchRef_httpSub hmx)) h

theorem replaceAngles_eq_self {cs : List Char} (h : ¬ HttpSub cs) :
    replaceAngles cs = cs := by
  refine scanGo_id (fun xs hx => ?_) _
  cases hmx : matchAngle xs with
  | none => exact asDelete_none hmx
  | some p => exact absurd (httpSub_infix_closed hx.isInfix (matchAngle_httpSub hmx)) h

theorem replaceBareUrls_eq_self {cs : List Char} (h : ¬ HttpSub cs) :
    replaceBareUrls cs = cs := by
  refine scanGo_id (fun xs hx => ?_) _
  cases hmx : matchBareUrl xs with
  | none => exact asDelete_none hmx
  | some p => exact absurd (httpSub_infix_closed hx.isInfix (matchBareUrl_httpSub hmx)) h

/-- On input without any `http://` or `https://` occurrence every replacement
is the identity and stripping is just trimming. -/
theorem strip_eq_trim {cs : List Char} (h : ¬ HttpSub cs) :
    stripUrlsFromMarkdown cs = trim cs := by
  rw [stripUrlsFromMarkdown, replaceImages_eq_self h, replaceLinks_eq_self h,
    replaceRefs_eq_self h, replaceAngles_eq_self h, replaceBareUrls_eq_self h]

/-! ## The bare-URL pass leaves no URL occurrence -/

theorem urlOcc_nil : ¬ UrlOcc ([] : List Char) := by
  rintro ⟨pre, c, suf, h | h, -⟩ <;> simp [httpPat, httpsPat] at h

theorem scanDel_some {m : List Char → Option (List Char)} {f : Nat} {c : Char}
    {cs rest : List Char} (hm : m (c :: cs) = some rest) :
    scanGo (asDelete m) (f + 1) (c :: cs) = scanGo (asDelete m) f rest := by
  rw [scanGo]
  have h : asDelete m (c :: cs) = some ([], rest) := by rw [asDelete, hm]; rfl
  rw [h]
  simp

theorem scanDel_none {m : List Char → Option (List Char)} {f : Nat} {c : Char}
    {cs : List Char} (hm : m (c :: cs) = none) :
    scanGo (asDelete m) (f + 1) (c :: cs) = c :: scanGo (asDelete m) f cs := by
  rw [scanGo]
  have h : asDelete m (c :: cs) = none := by rw [asDelete, hm]; rfl
  rw [h]

theorem nonws_ttp : ∀ x ∈ (['t', 't', 'p', ':', '/', '/'] : List Char), isSpace x = false := by
  decide

theorem nonws_ttps : ∀ x ∈ (['t', 't', 'p', 's', ':', '/', '/'] : List Char), isSpace x = false := by
  decide

/-- If the output of the bare-URL scan starts with a block of non-whitespace
characters, that block is literally the head of the input (no deletion can
end inside it, because deletions resume at whitespace). -/
theorem bareScan_prefix_extract :
    ∀ f pat cs suffix, cs.length ≤ f →
      (∀ d ∈ pat, isSpace d = false) →
      scanGo (asDelete matchBareUrl) f cs = pat ++ suffix →
      ∃ cs₂ f₂, cs = pat ++ cs₂ ∧ cs₂.length ≤ f₂ ∧
        suffix = scanGo (asDelete matchBareUrl) f₂ cs₂ := by
  intro f
  induction f with
  | zero =>
    intro pat cs suffix hlen hpat h
    have hcs : cs = [] := List.length_eq_zero.mp (Nat.le_zero.mp hlen)
    subst hcs
    rw [scanGo_nil] at h
    match pat, h with
    | [], h => exact ⟨[], 0, rfl, Nat.le_refl 0, by simpa using h⟩
  | succ f ih =>
    intro pat cs suffix hlen hpat h
    match pat with
    | [] => exact ⟨cs, f + 1, rfl, hlen, by simpa using h.symm⟩
    | d :: pat' =>
      match cs with
      | [] => rw [scanGo] at h; exact absurd h (by simp)
      | c :: cs' =>
        cases hm : matchBareUrl (c :: cs') with
        | some rest =>
          rw [scanDel_some hm] at h
          rcases matchBareUrl_rest_space hm with hrest | ⟨w, r', hrest, hw⟩
          · subst hrest
            rw [scanGo_nil] at h
            exact absurd h (by simp)
          · subst hrest
            exfalso
            have hd : isSpace d = false := hpat d (by simp)
            cases f with
            | zero =>
              rw [scanGo] at h
              have hdw : w = d := by simpa using congrArg (fun l => l.head?) h
              rw [← hdw, hw] at hd
              exact absurd hd (by simp)
            | succ f' =>
              cases hm2 : matchBareUrl (w :: r') with
              | some rest2 =>
                have hwh : w = 'h' := matchBareUrl_head hm2
                rw [hwh] at hw
                exact absurd hw (by simp [isSpace, jsSpaceCodes])
              | none =>
                rw [scanDel_none hm2] at h
                have hdw : w = d := by simpa using congrArg (fun l => l.head?) h
                rw [← hdw, hw] at hd
                exact absurd hd (by simp)
        | none =>
          rw [scanDel_none hm] at h
          have hc : c = d := by simpa using congrArg (fun l => l.head?) h
          have htl : scanGo (asDelete matchBareUrl) f cs' = pat' ++ suffix := by
            simpa using congrArg List.tail h
          have hlen' : cs'.length ≤ f := by simpa using hlen
          obtain ⟨cs₂, f₂, h1, h2, h3⟩ :=
            ih pat' cs' suffix hlen' (fun x hx => hpat x (by simp [hx])) htl
          exact ⟨cs₂, f₂, by rw [hc, h1]; rfl, h2, h3⟩

/-- Invariant: the output of the bare-URL replacement never contains
`http://` or `https://` followed by a non-whitespace character. -/
theorem bareScan_noUrl :
    ∀ f cs, cs.length ≤ f → ¬ UrlOcc (scanGo (asDelete matchBareUrl) f cs) := by
  intro f
  induction f with
  | zero =>
    intro cs hlen
    have hcs : cs = [] := List.length_eq_zero.mp (Nat.le_zero.mp hlen)
    subst hcs
    rw [scanGo_nil]
    exact urlOcc_nil
  | succ f ih =>
    intro cs hlen
    match cs with
    | [] => rw [scanGo]; exact urlOcc_nil
    | c :: cs' =>
      cases hm : matchBareUrl (c :: cs') with
      | some rest =>
        rw [scanDel_some hm]
        have hr : rest.length ≤ f := by
          have hs := matchBareUrl_shrink hm
          simp at hlen hs
          omega
        exact ih rest hr
      | none =>
        rw [scanDel_none hm]
        have hlen' : cs'.length ≤ f := by simpa using hlen
        have ihS := ih cs' hlen'
        rintro ⟨pre, d, suf, hocc, hd⟩
        match pre, hocc with
        | p :: pre', hocc =>
          refine ihS ⟨pre', d, suf, ?_, hd⟩
          rcases hocc with hocc | hocc
          · exact Or.inl (by simpa using congrArg List.tail hocc)
          · exact Or.inr (by simpa using congrArg List.tail hocc)
        | [], hocc =>
          rcases hocc with hocc | hocc
          all_goals {
            first
            | ( -- the http:// case
                have hc : c = 'h' := by
                  simpa [httpPat] using congrArg (fun l => l.head?) hocc
                have hS : scanGo (asDelete matchBareUrl) f cs' =
                    (['t', 't', 'p', ':', '/', '/'] ++ [d]) ++ suf := by
                  have := congrArg List.tail hocc
                  simp [httpPat] at this
                  simpa using this
                obtain ⟨cs₂, f₂, h1, h2, h3⟩ :=
                  bareScan_prefix_extract f (['t', 't', 'p', ':', '/', '/'] ++ [d]) cs' suf
                    hlen'
                    (by
                      intro x hx
                      rcases List.mem_append.mp hx with hx | hx
                      · exact nonws_ttp x hx
                      · simp at hx; rw [hx]; exact hd)
                    hS
                have hfull : c :: cs' = httpPat ++ d :: cs₂ := by
                  rw [hc, h1]; rfl
                rw [hfull] at hm
                exact matchBareUrl_pos_http hd hm)
            | ( -- the https:// case
                have hc : c = 'h' := by
                  simpa [httpsPat] using congrArg (fun l => l.head?) hocc
                have hS : scanGo (asDelete matchBareUrl) f cs' =
                    (['t', 't', 'p', 's', ':', '/', '/'] ++ [d]) ++ suf := by
                  have := congrArg List.tail hocc
                  simp [httpsPat] at this
                  simpa using this
                obtain ⟨cs₂, f₂, h1, h2, h3⟩ :=
                  bareScan_prefix_extract f (['t', 't', 'p', 's', ':', '/', '/'] ++ [d]) cs' suf
                    hlen'
                    (by
                      intro x hx
                      rcases List.mem_append.mp hx with hx | hx
                      · exact nonws_ttps x hx
                      · simp at hx; rw [hx]; exact hd)
                    hS
                have hfull : c :: cs' = httpsPat ++ d :: cs₂ := by
                  rw [hc, h1]; rfl
                rw [hfull] at hm
                exact matchBareUrl_pos_https hd hm)
          }

/-! ## Trim helpers -/

theorem trim_head_last {c d : Char} {m : List Char}
    (hc : isSpace c = false) (hd : isSpace d = false) :
    trim (c :: (m ++ [d])) = c :: (m ++ [d]) := by
  apply trim_eq_self
  · exact dropWhile_eq_self_of_head hc
  · have hrev : (c :: (m ++ [d])).reverse = d :: (m.reverse ++ [c]) := by simp
    rw [hrev]
    exact dropWhile_eq_self_of_head hd

/-! ## Forward evaluation of the matchers on well-formed markdown -/

theorem afterBracket_forward {text : List Char} (r2 : List Char)
    (ht : ∀ c ∈ text, (c != ']') = true) :
    afterBracket (text ++ ']' :: '(' :: r2) = some (text, r2) := by
  unfold afterBracket
  rw [dropWhile_eq_cons_rest ht (by decide) ('(' :: r2),
    takeWhile_eq_self_append ht (by decide) ('(' :: r2)]
  rfl

theorem closeLink_forward {tail : List Char} (r5 : List Char)
    (h1 : ∀ c ∈ tail, urlChar c = true) (h2 : tail ≠ []) :
    closeLink (tail ++ ')' :: r5) = some r5 := by
  unfold closeLink
  rw [takeWhile_eq_self_append h1 (by decide) r5,
    dropWhile_eq_cons_rest h1 (by decide) r5]
  simp [List.isEmpty_iff, h2]

theorem matchHttp_pat {pat : List Char} (t : List Char)
    (hpat : pat = httpPat ∨ pat = httpsPat) : matchHttp (pat ++ t) = some t := by
  rcases hpat with rfl | rfl
  · exact matchHttp_http t
  · exact matchHttp_https t

theorem matchLinkCore_forward {text tail pat : List Char} (rest : List Char)
    (hpat : pat = httpPat ∨ pat = httpsPat)
    (ht : ∀ c ∈ text, (c != ']') = true)
    (h1 : ∀ c ∈ tail, urlChar c = true) (h2 : tail ≠ []) :
    matchLinkCore ('[' :: (text ++ ']' :: '(' :: (pat ++ (tail ++ ')' :: rest)))) =
      some (text, rest) := by
  have hab := afterBracket_forward (pat ++ (tail ++ ')' :: rest)) ht
  have hhttp := matchHttp_pat (tail ++ ')' :: rest) hpat
  have hcl := closeLink_forward rest h1 h2
  simp only [matchLinkCore, hab, hhttp, hcl]

theorem matchImage_forward {text tail pat : List Char} (rest : List Char)
    (hpat : pat = httpPat ∨ pat = httpsPat)
    (ht : ∀ c ∈ text, (c != ']') = true)
    (h1 : ∀ c ∈ tail, urlChar c = true) (h2 : tail ≠ []) :
    matchImage ('!' :: '[' :: (text ++ ']' :: '(' :: (pat ++ (tail ++ ')' :: rest)))) =
      some (text, rest) := by
  have := matchLinkCore_forward rest hpat ht h1 h2
  simpa [matchImage] using this

/-! ## Head characters of the matchers -/

theorem matchImage_none_of_ne {c : Char} {r : List Char} (hc : ¬ c = '!') :
    matchImage (c :: r) = none := by
  unfold matchImage
  split
  next heq => injection heq with h1 h2; exact absurd h1 hc
  next => rfl

theorem matchLinkCore_none_of_ne {c : Char} {r : List Char} (hc : ¬ c = '[') :
    matchLinkCore (c :: r) = none := by
  unfold matchLinkCore
  split
  next heq => injection heq with h1 h2; exact absurd h1 hc
  next => rfl

theorem matchRef_none_of_ne {c : Char} {r : List Char} (hc : ¬ c = '[') :
    matchRef (c :: r) = none := by
  unfold matchRef
  split
  next heq => injection heq with h1 h2; exact absurd h1 hc
  next => rfl

theorem matchAngle_none_of_ne {c : Char} {r : List Char} (hc : ¬ c = '<') :
    matchAngle (c :: r) = none := by
  unfold matchAngle
  split
  next heq => injection heq with h1 h2; exact absurd h1 hc
  next => rfl

theorem matchImage_nil : matchImage [] = none := rfl

theorem matchRef_nil : matchRef [] = none := rfl

/-- The scan is the identity if the matcher's trigger character does not
occur in the input. -/
theorem scanGo_id_char {m : List Char → Option (List Char × List Char)} {a : Char}
    {cs : List Char}
    (hm : ∀ c r, c ≠ a → m (c :: r) = none)
    (hnil : m [] = none) (ha : a ∉ cs) (f : Nat) : scanGo m f cs = cs := by
  refine scanGo_id (fun xs hx => ?_) f
  match xs with
  | [] => exact hnil
  | c :: r =>
    refine hm c r (fun hca => ?_)
    exact ha (hx.subset (by rw [← hca]; exact List.mem_cons_self c r))

/-- The reference scan is the identity if `[` does not occur in the input. -/
theorem scanRefs_id_char {cs : List Char} (ha : ('[' : Char) ∉ cs) (f : Nat) (b : Bool) :
    scanRefsGo f b cs = cs := by
  refine scanRefsGo_id (fun xs hx => ?_) f b
  match xs with
  | [] => exact matchRef_nil
  | c :: r =>
    refine matchRef_none_of_ne (fun hca => ?_)
    exact ha (hx.subset (by rw [← hca]; exact List.mem_cons_self c r))

/-! ## Single-occurrence scan evaluation -/

theorem scanRefsGo_nil (f : Nat) (b : Bool) : scanRefsGo f b [] = [] := by
  cases f <;> rfl

theorem scanGo_id_single {m : List Char → Option (List Char × List Char)} {a : Char}
    {t : List Char}
    (hm : ∀ c r, c ≠ a → m (c :: r) = none)
    (hnil : m [] = none)
    (hhead : m (a :: t) = none) (ha : a ∉ t) (f : Nat) :
    scanGo m f (a :: t) = a :: t := by
  refine scanGo_id (fun xs hx => ?_) f
  rcases List.suffix_cons_iff.mp hx with rfl | hx'
  · exact hhead
  · match xs with
    | [] => exact hnil
    | c :: r =>
      refine hm c r (fun hca => ?_)
      exact ha (hx'.subset (by rw [← hca]; exact List.mem_cons_self c r))

theorem scanRefs_id_single {t : List Char}
    (hhead : matchRef ('[' :: t) = none) (ha : ('[' : Char) ∉ t) (f : Nat) (b : Bool) :
    scanRefsGo f b ('[' :: t) = '[' :: t := by
  refine scanRefsGo_id (fun xs hx => ?_) f b
  rcases List.suffix_cons_iff.mp hx with rfl | hx'
  · exact hhead
  · match xs with
    | [] => exact matchRef_nil
    | c :: r =>
      refine matchRef_none_of_ne (fun hca => ?_)
      exact ha (hx'.subset (by rw [← hca]; exact List.mem_cons_self c r))

theorem scanRefs_head_all {c : Char} {cs : List Char} {f : Nat}
    (h : matchRef (c :: cs) = some []) : scanRefsGo (f + 1) true (c :: cs) = [] := by
  rw [scanRefsGo]
  simp [h, scanRefsGo_nil]

theorem scanDel_head_all {m : List Char → Option (List Char)} {c : Char} {cs : List Char}
    {f : Nat} (h : m (c :: cs) = some []) :
    scanGo (asDelete m) (f + 1) (c :: cs) = [] := by
  rw [scanDel_some h, scanGo_nil]

/-! ## Forward evaluation of the reference, angle and bare matchers -/

theorem afterBracket_colon_none {label : List Char} (r2 : List Char)
    (hl : ∀ c ∈ label, (c != ']') = true) :
    afterBracket (label ++ ']' :: ':' :: r2) = none := by
  unfold afterBracket
  rw [dropWhile_eq_cons_rest hl (by decide) (':' :: r2)]
  rfl

theorem matchLinkCore_colon_none {label : List Char} (r2 : List Char)
    (hl : ∀ c ∈ label, (c != ']') = true) :
    matchLinkCore ('[' :: (label ++ ']' :: ':' :: r2)) = none := by
  simp only [matchLinkCore, afterBracket_colon_none r2 hl]

theorem refHead_forward {label : List Char} (r2 : List Char)
    (hl : ∀ c ∈ label, (c != ']') = true) (hne : label ≠ []) :
    refHead (label ++ ']' :: ':' :: r2) = some r2 := by
  unfold refHead
  rw [takeWhile_eq_self_append hl (by decide) (':' :: r2),
    dropWhile_eq_cons_rest hl (by decide) (':' :: r2)]
  simp [List.isEmpty_iff, hne]

theorem matchRef_forward {label tail pat : List Char}
    (hpat : pat = httpPat ∨ pat = httpsPat)
    (hl : ∀ c ∈ label, (c != ']') = true) (hne : label ≠ [])
    (h1 : ∀ c ∈ tail, isSpace c = false) (h2 : tail ≠ []) :
    matchRef ('[' :: (label ++ ']' :: ':' :: ' ' :: (pat ++ tail))) = some [] := by
  have hrh := refHead_forward (' ' :: (pat ++ tail)) hl hne
  have hdw : (' ' :: (pat ++ tail)).dropWhile isSpace = pat ++ tail := by
    rw [List.dropWhile_cons_of_pos (by decide)]
    rcases hpat with rfl | rfl <;>
      exact dropWhile_eq_self_of_head (by decide)
  have hhttp := matchHttp_pat tail hpat
  have htk : tail.takeWhile (fun c => !isSpace c) = tail :=
    List.takeWhile_eq_self_iff.mpr (by intro x hx; simp [h1 x hx])
  have hdw2 : tail.dropWhile (fun c => !isSpace c) = [] :=
    List.dropWhile_eq_nil_iff.mpr (by intro x hx; simp [h1 x hx])
  simp only [matchRef, hrh, hdw, hhttp, htk, hdw2]
  simp [List.isEmpty_iff, h2, refEnd]

theorem matchAngle_forward {tail pat : List Char}
    (hpat : pat = httpPat ∨ pat = httpsPat)
    (h1 : ∀ c ∈ tail, (c != '>') = true) (h2 : tail ≠ []) :
    matchAngle ('<' :: (pat ++ (tail ++ ['>']))) = some [] := by
  have hhttp := matchHttp_pat (tail ++ ['>']) hpat
  have htk : (tail ++ ['>']).takeWhile (fun c => c != '>') = tail := by
    have := takeWhile_eq_self_append (c := '>') h1 (by decide) ([] : List Char)
    simpa using this
  have hdw : (tail ++ ['>']).dropWhile (fun c => c != '>') = ['>'] := by
    have := dropWhile_eq_cons_rest (c := '>') h1 (by decide) ([] : List Char)
    simpa using this
  simp only [matchAngle, hhttp, htk, hdw]
  simp [List.isEmpty_iff, h2]

theorem matchBareUrl_forward {tail pat : List Char}
    (hpat : pat = httpPat ∨ pat = httpsPat)
    (h1 : ∀ c ∈ tail, isSpace c = false) (h2 : tail ≠ []) :
    matchBareUrl (pat ++ tail) = some [] := by
  have hhttp := matchHttp_pat tail hpat
  have htk : tail.takeWhile (fun c => !isSpace c) = tail :=
    List.takeWhile_eq_self_iff.mpr (by intro x hx; simp [h1 x hx])
  have hdw : tail.dropWhile (fun c => !isSpace c) = [] :=
    List.dropWhile_eq_nil_iff.mpr (by intro x hx; simp [h1 x hx])
  simp only [matchBareUrl, hhttp, htk, hdw]
  simp [List.isEmpty_iff, h2]

/-! ## trim is idempotent -/

theorem trim_prefix_dropWhile (x : List Char) : trim x <+: x.dropWhile isSpace := by
  rw [← List.reverse_suffix, trim, List.reverse_reverse]
  exact List.dropWhile_suffix isSpace

theorem trim_idem (x : List Char) : trim (trim x) = trim x := by
  apply trim_eq_self
  · cases htx : trim x with
    | nil => rfl
    | cons h t =>
      apply dropWhile_eq_self_of_head
      obtain ⟨s, hs⟩ := trim_prefix_dropWhile x
      rw [htx] at hs
      exact dropWhile_head_false hs.symm
  · have hrev : (trim x).reverse = (x.dropWhile isSpace).reverse.dropWhile isSpace := by
      rw [trim, List.reverse_reverse]
    rw [hrev, List.dropWhile_idempotent]

/-! ## hasUrlOcc is sound for UrlOcc -/

theorem headNonWs_spec {cs : List Char} (h : headNonWs cs = true) :
    ∃ c suf, cs = c :: suf ∧ isSpace c = false := by
  match cs, h with
  | c :: suf, h => exact ⟨c, suf, rfl, by simpa [headNonWs] using h⟩

theorem urlOcc_of_hasUrlOcc {cs : List Char} (h : hasUrlOcc cs = true) : UrlOcc cs := by
  induction cs with
  | nil => simp [hasUrlOcc] at h
  | cons c t ih =>
    rw [hasUrlOcc] at h
    simp only [Bool.or_eq_true, Bool.and_eq_true] at h
    rcases h with (⟨h1, h2⟩ | ⟨h1, h2⟩) | h1
    · obtain ⟨s, hs⟩ := List.isPrefixOf_iff_prefix.mp h1
      obtain ⟨d, suf, hds, hd⟩ := headNonWs_spec h2
      have hs7 : s = d :: suf := by
        have : ((c :: t).drop 7) = s := by rw [← hs]; exact List.drop_left httpPat s
        rw [← this, hds]
      exact ⟨[], d, suf, Or.inl (by rw [← hs, hs7]; rfl), hd⟩
    · obtain ⟨s, hs⟩ := List.isPrefixOf_iff_prefix.mp h1
      obtain ⟨d, suf, hds, hd⟩ := headNonWs_spec h2
      have hs8 : s = d :: suf := by
        have : ((c :: t).drop 8) = s := by rw [← hs]; exact List.drop_left httpsPat s
        rw [← this, hds]
      exact ⟨[], d, suf, Or.inr (by rw [← hs, hs8]; rfl), hd⟩
    · exact urlOcc_cons (ih h1)

/-! ## The shape of searchOnWeb results -/

theorem searchOnWeb_eq (hits : List SearchResult)
    (scrapeUrl : List Char → ScrapeOptions → ScrapeCallResult) :
    searchOnWebResults hits scrapeUrl =
      (hits.filter
        (fun h => !(scrapeContent (scrapeUrl h.url firecrawlScrapeOptions)).isEmpty)).map
        (fun h => scrapeSearchResult scrapeUrl h) := by
  rw [searchOnWebResults]
  have hmf : ((hits.map (fun h => scrapeSearchResult scrapeUrl h)).filter
      (fun r => !r.content.isEmpty)) =
      (hits.filter
        (fun h => !(scrapeContent (scrapeUrl h.url firecrawlScrapeOptions)).isEmpty)).map
        (fun h => scrapeSearchResult scrapeUrl h) := by
    rw [List.filter_map]
    rfl
  simp only [hmf]
  split
  next hlen =>
    have := List.length_eq_zero.mp hlen
    rw [this]
  next => rfl

/-! ## Clause evaluation of the sanitizer -/

theorem strip_image_eval {alt tail pat : List Char}
    (hpat : pat = httpPat ∨ pat = httpsPat)
    (halt : ∀ c ∈ alt, (c != ']') = true)
    (haltH : noHttp alt = true)
    (h1 : ∀ c ∈ tail, urlChar c = true) (h2 : tail ≠ []) :
    stripUrlsFromMarkdown
      ('!' :: '[' :: (alt ++ ']' :: '(' :: (pat ++ (tail ++ ')' :: [])))) = trim alt := by
  have hno := noHttp_not_httpSub haltH
  have hImg : replaceImages
      ('!' :: '[' :: (alt ++ ']' :: '(' :: (pat ++ (tail ++ ')' :: [])))) = alt := by
    rw [replaceImages, List.length_cons]
    exact scanGo_head_all (matchImage_forward [] hpat halt h1 h2) _
  rw [stripUrlsFromMarkdown, hImg, replaceLinks_eq_self hno, replaceRefs_eq_self hno,
    replaceAngles_eq_self hno, replaceBareUrls_eq_self hno]

theorem strip_link_eval {text tail pat : List Char}
    (hpat : pat = httpPat ∨ pat = httpsPat)
    (htext : ∀ c ∈ text, (c != ']') = true)
    (htextH : noHttp text = true)
    (h1 : ∀ c ∈ tail, urlChar c = true) (h2 : tail ≠ [])
    (hni : ('!' : Char) ∉ '[' :: (text ++ ']' :: '(' :: (pat ++ (tail ++ ')' :: [])))) :
    stripUrlsFromMarkdown
      ('[' :: (text ++ ']' :: '(' :: (pat ++ (tail ++ ')' :: [])))) = trim text := by
  have hno := noHttp_not_httpSub htextH
  have hR1 : replaceImages
      ('[' :: (text ++ ']' :: '(' :: (pat ++ (tail ++ ')' :: [])))) =
      ('[' :: (text ++ ']' :: '(' :: (pat ++ (tail ++ ')' :: [])))) := by
    rw [replaceImages]
    exact scanGo_id_char (fun c r hc => matchImage_none_of_ne hc) matchImage_nil hni _
  have hR2 : replaceLinks
      ('[' :: (text ++ ']' :: '(' :: (pat ++ (tail ++ ')' :: [])))) = text := by
    rw [replaceLinks, List.length_cons]
    exact scanGo_head_all (matchLinkCore_forward [] hpat htext h1 h2) _
  rw [stripUrlsFromMarkdown, hR1, hR2, replaceRefs_eq_self hno,
    replaceAngles_eq_self hno, replaceBareUrls_eq_self hno]

theorem strip_ref_eval {label tail pat : List Char}
    (hpat : pat = httpPat ∨ pat = httpsPat)
    (hl : ∀ c ∈ label, (c != ']') = true) (hne : label ≠ [])
    (h1 : ∀ c ∈ tail, isSpace c = false) (h2 : tail ≠ [])
    (hni : ('!' : Char) ∉ '[' :: (label ++ ']' :: ':' :: ' ' :: (pat ++ tail)))
    (hnb : ('[' : Char) ∉ label ++ ']' :: ':' :: ' ' :: (pat ++ tail)) :
    stripUrlsFromMarkdown ('[' :: (label ++ ']' :: ':' :: ' ' :: (pat ++ tail))) = [] := by
  have hR1 : replaceImages ('[' :: (label ++ ']' :: ':' :: ' ' :: (pat ++ tail))) =
      ('[' :: (label ++ ']' :: ':' :: ' ' :: (pat ++ tail))) := by
    rw [replaceImages]
    exact scanGo_id_char (fun c r hc => matchImage_none_of_ne hc) matchImage_nil hni _
  have hR2 : replaceLinks ('[' :: (label ++ ']' :: ':' :: ' ' :: (pat ++ tail))) =
      ('[' :: (label ++ ']' :: ':' :: ' ' :: (pat ++ tail))) := by
    rw [replaceLinks]
    exact scanGo_id_single (fun c r hc => matchLinkCore_none_of_ne hc) rfl
      (matchLinkCore_colon_none _ hl) hnb _
  have hR3 : replaceRefs ('[' :: (label ++ ']' :: ':' :: ' ' :: (pat ++ tail))) = [] := by
    rw [replaceRefs, List.length_cons]
    exact scanRefs_head_all (matchRef_forward hpat hl hne h1 h2)
  rw [stripUrlsFromMarkdown, hR1, hR2, hR3]
  rfl

theorem strip_angle_eval {tail pat : List Char}
    (hpat : pat = httpPat ∨ pat = httpsPat)
    (h1 : ∀ c ∈ tail, (c != '>') = true) (h2 : tail ≠ [])
    (hni : ('!' : Char) ∉ '<' :: (pat ++ (tail ++ ['>'])))
    (hnb : ('[' : Char) ∉ '<' :: (pat ++ (tail ++ ['>']))) :
    stripUrlsFromMarkdown ('<' :: (pat ++ (tail ++ ['>']))) = [] := by
  have hR1 : replaceImages ('<' :: (pat ++ (tail ++ ['>']))) =
      ('<' :: (pat ++ (tail ++ ['>']))) := by
    rw [replaceImages]
    exact scanGo_id_char (fun c r hc => matchImage_none_of_ne hc) matchImage_nil hni _
  have hR2 : replaceLinks ('<' :: (pat ++ (tail ++ ['>']))) =
      ('<' :: (pat ++ (tail ++ ['>']))) := by
    rw [replaceLinks]
    exact scanGo_id_char (fun c r hc => matchLinkCore_none_of_ne hc) rfl hnb _
  have hR3 : replaceRefs ('<' :: (pat ++ (tail ++ ['>']))) =
      ('<' :: (pat ++ (tail ++ ['>']))) := by
    rw [replaceRefs]
    exact scanRefs_id_char hnb _ _
  have hR4 : replaceAngles ('<' :: (pat ++ (tail ++ ['>']))) = [] := by
    rw [replaceAngles, List.length_cons]
    exact scanDel_head_all (matchAngle_forward hpat h1 h2)
  rw [stripUrlsFromMarkdown, hR1, hR2, hR3, hR4]
  rfl

theorem strip_bare_eval {tail pat : List Char}
    (hpat : pat = httpPat ∨ pat = httpsPat)
    (h1 : ∀ c ∈ tail, isSpace c = false) (h2 : tail ≠ [])
    (hni : ('!' : Char) ∉ pat ++ tail)
    (hnb : ('[' : Char) ∉ pat ++ tail)
    (hna : ('<' : Char) ∉ pat ++ tail) :
    stripUrlsFromMarkdown (pat ++ tail) = [] := by
  have hR1 : replaceImages (pat ++ tail) = pat ++ tail := by
    rw [replaceImages]
    exact scanGo_id_char (fun c r hc => matchImage_none_of_ne hc) matchImage_nil hni _
  have hR2 : replaceLinks (pat ++ tail) = pat ++ tail := by
    rw [replaceLinks]
    exact scanGo_id_char (fun c r hc => matchLinkCore_none_of_ne hc) rfl hnb _
  have hR3 : replaceRefs (pat ++ tail) = pat ++ tail := by
    rw [replaceRefs]
    rcases List.exists_cons_of_ne_nil (by rcases hpat with rfl | rfl <;> simp [httpPat, httpsPat] :
      pat ++ tail ≠ []) with ⟨c, r, hcr⟩
    rw [hcr]
    refine scanRefsGo_id (fun xs hx => ?_) _ _
    match xs with
    | [] => exact matchRef_nil
    | d :: r' =>
      refine matchRef_none_of_ne (fun hd => ?_)
      refine hnb ?_
      rw [← hcr] at hx
      exact hx.subset (by rw [← hd]; exact List.mem_cons_self d r')
  have hR4 : replaceAngles (pat ++ tail) = pat ++ tail := by
    rw [replaceAngles]
    exact scanGo_id_char (fun c r hc => asDelete_none (matchAngle_none_of_ne hc)) rfl hna _
  have hR5 : replaceBareUrls (pat ++ tail) = [] := by
    rcases hpat with rfl | rfl
    · have hlen : (httpPat ++ tail).length = (tail.length + 6) + 1 := by
        simp [httpPat]
      rw [replaceBareUrls, hlen]
      exact scanDel_head_all (matchBareUrl_forward (Or.inl rfl) h1 h2)
    · have hlen : (httpsPat ++ tail).length = (tail.length + 7) + 1 := by
        simp [httpsPat]
      rw [replaceBareUrls, hlen]
      exact scanDel_head_all (matchBareUrl_forward (Or.inr rfl) h1 h2)
  rw [stripUrlsFromMarkdown, hR1, hR2, hR3, hR4, hR5]
  rfl

theorem parseHits_isNone {hits : List BraveRawHit}
    (h : ∃ x ∈ hits, parseHit x = none) : parseHits hits = none := by
  induction hits with
  | nil =>
    obtain ⟨x, hx, -⟩ := h
    exact absurd hx (List.not_mem_nil x)
  | cons a t ih =>
    obtain ⟨x, hx, hpx⟩ := h
    rw [parseHits]
    rcases List.mem_cons.mp hx with rfl | hx'
    · rw [hpx]
    · rw [ih ⟨x, hx', hpx⟩]
      cases parseHit a <;> rfl

theorem statusStep_rank_lt (s t : ChatStatus) (h : statusStep s t = true) :
    statusRank s < statusRank t := by
  cases s <;> cases t <;> revert h <;> decide

/-! # Claim theorems -/

/-- Claim C1, counterexample: the claim states that individually malformed
hit entries are discarded while the remaining well-formed entries are kept.
In the code the whole `web.results` array goes through a single
`z.array(...).parse`, which throws as soon as any entry is invalid: a
response holding one valid and one invalid entry makes the entire search
call fail instead of returning the valid entry. -/
theorem claim1_drop_malformed_counterexample :
    (parseHit braveGoodHit).isSome = true ∧ parseHit braveBadHit = none ∧
    parseSearchResponse ⟨some [braveGoodHit, braveBadHit]⟩ = Except.error () := by
  refine ⟨rfl, rfl, rfl⟩

/-- Claim C1, amended: Brave-response parsing is all-or-nothing.  A missing
`web.results` (top-level shape mismatch) fails the call, any individually
malformed entry also fails the whole call, and only a response whose every
entry validates yields the parsed hit list. -/
theorem claim1_parse_all_or_nothing :
    (parseSearchResponse ⟨none⟩ = Except.error ()) ∧
    (∀ hits : List BraveRawHit, (∃ h ∈ hits, parseHit h = none) →
      parseSearchResponse ⟨some hits⟩ = Except.error ()) ∧
    (∀ (hits : List BraveRawHit) (out : List SearchResult), parseHits hits = some out →
      parseSearchResponse ⟨some hits⟩ = Except.ok out) := by
  refine ⟨rfl, ?_, ?_⟩
  · intro hits h
    simp only [parseSearchResponse, parseHits_isNone h]
  · intro hits out h
    simp only [parseSearchResponse, h]

/-- Witness for C1 at a concrete response with one bad entry. -/
theorem claim1_parse_all_or_nothing_witness :
    parseSearchResponse ⟨some [braveGoodHit, braveBadHit]⟩ = Except.error () :=
  claim1_parse_all_or_nothing.2.1 [braveGoodHit, braveBadHit]
    ⟨braveBadHit, by simp, rfl⟩

/-- Claim C2: the fan-out never fails as a whole because of one scrape.  The
model of `searchOnWeb`'s tail is a total function for every scrape oracle
(including oracles whose calls throw — modelled by `ScrapeCallResult.throws`,
caught inside `scrapeSearchResult`); its result is exactly the per-hit
results whose content is non-empty, in order, so a failing URL is excluded
while every other success is kept; and if every scrape fails the call
returns the empty list. -/
theorem claim2_scrape_failures_isolated :
    ∀ (hits : List SearchResult) (scrapeUrl : List Char → ScrapeOptions → ScrapeCallResult),
      searchOnWebResults hits scrapeUrl =
        (hits.filter
          (fun h => !(scrapeContent (scrapeUrl h.url firecrawlScrapeOptions)).isEmpty)).map
          (fun h => scrapeSearchResult scrapeUrl h) ∧
      ((∀ h ∈ hits, (scrapeContent (scrapeUrl h.url firecrawlScrapeOptions)).isEmpty = true) →
        searchOnWebResults hits scrapeUrl = []) := by
  intro hits scrapeUrl
  refine ⟨searchOnWeb_eq hits scrapeUrl, fun hall => ?_⟩
  rw [searchOnWeb_eq]
  have hnil : hits.filter
      (fun h => !(scrapeContent (scrapeUrl h.url firecrawlScrapeOptions)).isEmpty) = [] := by
    refine List.filter_eq_nil_iff.mpr (fun h hh => ?_)
    simp [hall h hh]
  rw [hnil]
  rfl

/-- Witness for C2: with two hits and an oracle that rejects every call the
fan-out returns the empty list. -/
theorem claim2_scrape_failures_isolated_witness :
    searchOnWebResults [exHit, exHit2] exScrapeAllFail = [] :=
  (claim2_scrape_failures_isolated [exHit, exHit2] exScrapeAllFail).2 (by decide)

/-- Claim C4: every result returned by the fan-out has non-empty (sanitized)
content. -/
theorem claim4_findings_nonempty :
    ∀ (hits : List SearchResult) (scrapeUrl : List Char → ScrapeOptions → ScrapeCallResult)
      (r : ScrapedResult), r ∈ searchOnWebResults hits scrapeUrl →
      r.content.isEmpty = false := by
  intro hits su r hr
  rw [searchOnWeb_eq] at hr
  obtain ⟨h, hh, rfl⟩ := List.mem_map.mp hr
  have hf := List.of_mem_filter hh
  simpa [scrapeSearchResult] using hf

/-- Witness for C4 at a concrete mixed oracle. -/
theorem claim4_findings_nonempty_witness :
    (scrapeSearchResult exScrapeMixed exHit).content.isEmpty = false :=
  claim4_findings_nonempty [exHit, exHit2] exScrapeMixed _ (by decide)

/-- Claim C6: the sanitized content is capped at 80000 characters by the
`substring(0, 80_000)`. -/
theorem claim6_sanitize_capped (cs : List Char) : (sanitizeContent cs).length ≤ 80000 := by
  rw [sanitizeContent]
  exact List.length_take_le _ _

/-- Claim C7: every scrape call passes the options
`timeout: 15000, maxAge: 12 * 60 * 60 * 1000 = 43200000`, and
`scrapeSearchResult` invokes the collaborator on the hit URL with exactly
`firecrawlScrapeOptions`. -/
theorem claim7_scrape_call_options :
    firecrawlScrapeOptions.timeout = 15000 ∧
    firecrawlScrapeOptions.maxAge = 43200000 ∧
    ∀ (scrapeUrl : List Char → ScrapeOptions → ScrapeCallResult) (sr : SearchResult),
      scrapeSearchResult scrapeUrl sr =
        { title := sr.title, link := sr.url,
          content := scrapeContent
            (scrapeUrl sr.url { timeout := 15000, maxAge := 43200000 }) } :=
  ⟨rfl, rfl, fun _ _ => rfl⟩

/-- Claim C8, counterexample: the claim says the set of lifecycle states is
the four-step progression plus a distinct terminal failure state.  The
status enum of the migration has exactly the four progression states and no
failure state: no fifth state exists. -/
theorem claim8_failure_state_counterexample :
    ¬ ∃ fail : ChatStatus, fail ∉ [ChatStatus.questions, ChatStatus.pending,
      ChatStatus.processing, ChatStatus.completed] := by
  rintro ⟨s, hs⟩
  cases s <;> simp at hs

/-- Claim C8, amended: the lifecycle states are exactly `questions`,
`pending`, `processing`, `completed`, with `questions` the declared default
(initial) state; along the spec-modelled transition relation the rank is
strictly increasing, hence monotone along every transition chain and with no
backward transitions. -/
theorem claim8_lifecycle_amended :
    statusDefault = ChatStatus.questions ∧
    (∀ s : ChatStatus, s ∈ [ChatStatus.questions, ChatStatus.pending,
      ChatStatus.processing, ChatStatus.completed]) ∧
    (∀ s t, statusStep s t = true → statusRank s < statusRank t) ∧
    (∀ s t, Relation.ReflTransGen (fun a b => statusStep a b = true) s t →
      statusRank s ≤ statusRank t) := by
  refine ⟨rfl, ?_, statusStep_rank_lt, ?_⟩
  · intro s; cases s <;> simp
  · intro s t h
    induction h with
    | refl => exact le_refl _
    | tail hst hstep ih => exact le_trans ih (le_of_lt (statusStep_rank_lt _ _ hstep))

/-- Witness for C8 at the first transition. -/
theorem claim8_lifecycle_amended_witness :
    statusRank ChatStatus.questions < statusRank ChatStatus.pending :=
  claim8_lifecycle_amended.2.2.1 ChatStatus.questions ChatStatus.pending (by decide)

/-- Claim C3, counterexample: the sanitizer is not idempotent.  On
`"<htt<https://a>p:// q>"` the angle-bracket rule deletes `<https://a>` and
thereby assembles `"<http:// q>"`, which the first application leaves (the
bare-URL rule does not fire because a space follows `http://`) but a second
application deletes via the angle-bracket rule. -/
theorem claim3_idempotence_counterexample :
    sanitizeContent (sanitizeContent idemCounterInput) ≠ sanitizeContent idemCounterInput := by
  decide

/-- Claim C3, amended: the sanitizer is idempotent on every input that
contains no `http://` or `https://` substring and whose trimmed form fits
the 80000-character cap (so neither a URL rule nor truncation can expose new
work for a second pass). -/
theorem claim3_idempotence_amended (x : List Char) (h1 : noHttp x = true)
    (h2 : (trim x).length ≤ 80000) :
    sanitizeContent (sanitizeContent x) = sanitizeContent x := by
  have hno := noHttp_not_httpSub h1
  have ht : sanitizeContent x = trim x := by
    rw [sanitizeContent, strip_eq_trim hno, List.take_of_length_le h2]
  have hno2 : ¬ HttpSub (trim x) := fun hsub => hno (httpSub_infix_closed (trim_infix_self x) hsub)
  rw [ht, sanitizeContent, strip_eq_trim hno2, trim_idem, List.take_of_length_le h2]

/-- Witness for C3 on a URL-free short input. -/
theorem claim3_idempotence_amended_witness :
    sanitizeContent (sanitizeContent ("ab".data)) = sanitizeContent ("ab".data) :=
  claim3_idempotence_amended ("ab".data) (by decide) (by decide)

/-- Claim C5: behaviour of the sanitizer on each markdown form.  An embedded
image `![alt](https?://…)` is replaced by its alt text; a hyperlink
`[text](https?://…)` keeps the link text and discards the URL; a
reference-style definition line `[label]: https?://…` is removed; an
angle-bracketed URL `<https?://…>` is removed; a bare URL is removed; and on
markup-free input the sanitizer exactly trims surrounding whitespace.  The
side conditions say the surrounding text carries no further markup of its
own and the URL tail consists of characters the regexes accept. -/
theorem claim5_sanitizer_removals :
    (∀ alt tail pat, (pat = httpPat ∨ pat = httpsPat) →
      (∀ c ∈ alt, (c != ']') = true) → noHttp alt = true →
      (∀ c ∈ tail, urlChar c = true) → tail ≠ [] →
      stripUrlsFromMarkdown
        ('!' :: '[' :: (alt ++ ']' :: '(' :: (pat ++ (tail ++ ')' :: [])))) = trim alt) ∧
    (∀ text tail pat, (pat = httpPat ∨ pat = httpsPat) →
      (∀ c ∈ text, (c != ']') = true) → noHttp text = true →
      (∀ c ∈ tail, urlChar c = true) → tail ≠ [] →
      ('!' : Char) ∉ '[' :: (text ++ ']' :: '(' :: (pat ++ (tail ++ ')' :: []))) →
      stripUrlsFromMarkdown
        ('[' :: (text ++ ']' :: '(' :: (pat ++ (tail ++ ')' :: [])))) = trim text) ∧
    (∀ label tail pat, (pat = httpPat ∨ pat = httpsPat) →
      (∀ c ∈ label, (c != ']') = true) → label ≠ [] →
      (∀ c ∈ tail, isSpace c = false) → tail ≠ [] →
      ('!' : Char) ∉ '[' :: (label ++ ']' :: ':' :: ' ' :: (pat ++ tail)) →
      ('[' : Char) ∉ label ++ ']' :: ':' :: ' ' :: (pat ++ tail) →
      stripUrlsFromMarkdown ('[' :: (label ++ ']' :: ':' :: ' ' :: (pat ++ tail))) = []) ∧
    (∀ tail pat, (pat = httpPat ∨ pat = httpsPat) →
      (∀ c ∈ tail, (c != '>') = true) → tail ≠ [] →
      ('!' : Char) ∉ '<' :: (pat ++ (tail ++ ['>'])) →
      ('[' : Char) ∉ '<' :: (pat ++ (tail ++ ['>'])) →
      stripUrlsFromMarkdown ('<' :: (pat ++ (tail ++ ['>']))) = []) ∧
    (∀ tail pat, (pat = httpPat ∨ pat = httpsPat) →
      (∀ c ∈ tail, isSpace c = false) → tail ≠ [] →
      ('!' : Char) ∉ pat ++ tail → ('[' : Char) ∉ pat ++ tail →
      ('<' : Char) ∉ pat ++ tail →
      stripUrlsFromMarkdown (pat ++ tail) = []) ∧
    (∀ cs, noHttp cs = true → stripUrlsFromMarkdown cs = trim cs) :=
  ⟨fun _ _ _ hpat halt haltH h1 h2 => strip_image_eval hpat halt haltH h1 h2,
   fun _ _ _ hpat ht hH h1 h2 hni => strip_link_eval hpat ht hH h1 h2 hni,
   fun _ _ _ hpat hl hne h1 h2 hni hnb => strip_ref_eval hpat hl hne h1 h2 hni hnb,
   fun _ _ hpat h1 h2 hni hnb => strip_angle_eval hpat h1 h2 hni hnb,
   fun _ _ hpat h1 h2 hni hnb hna => strip_bare_eval hpat h1 h2 hni hnb hna,
   fun _ hcs => strip_eq_trim (noHttp_not_httpSub hcs)⟩

/-- Witness for C5: each clause instantiated on a concrete markdown
fragment. -/
theorem claim5_sanitizer_removals_witness :
    stripUrlsFromMarkdown
      ('!' :: '[' :: ("pic".data ++ ']' :: '(' :: (httpPat ++ ("e.com/x".data ++ ')' :: []))))
      = trim ("pic".data) ∧
    stripUrlsFromMarkdown
      ('[' :: ("docs".data ++ ']' :: '(' :: (httpsPat ++ ("e.org/d".data ++ ')' :: []))))
      = trim ("docs".data) ∧
    stripUrlsFromMarkdown
      ('[' :: ("r1".data ++ ']' :: ':' :: ' ' :: (httpPat ++ "e.com".data))) = [] ∧
    stripUrlsFromMarkdown ('<' :: (httpsPat ++ ("e.com".data ++ ['>']))) = [] ∧
    stripUrlsFromMarkdown (httpPat ++ "e.com".data) = [] ∧
    stripUrlsFromMarkdown ("  hi  ".data) = trim ("  hi  ".data) :=
  ⟨claim5_sanitizer_removals.1 "pic".data "e.com/x".data httpPat (Or.inl rfl)
      (by decide) (by decide) (by decide) (by decide),
   claim5_sanitizer_removals.2.1 "docs".data "e.org/d".data httpsPat (Or.inr rfl)
      (by decide) (by decide) (by decide) (by decide) (by decide),
   claim5_sanitizer_removals.2.2.1 "r1".data "e.com".data httpPat (Or.inl rfl)
      (by decide) (by decide) (by decide) (by decide) (by decide) (by decide),
   claim5_sanitizer_removals.2.2.2.1 "e.com".data httpsPat (Or.inr rfl)
      (by decide) (by decide) (by decide) (by decide),
   claim5_sanitizer_removals.2.2.2.2.1 "e.com".data httpPat (Or.inl rfl)
      (by decide) (by decide) (by decide) (by decide) (by decide),
   claim5_sanitizer_removals.2.2.2.2.2 "  hi  ".data (by decide)⟩

/-- Claim C9: the output of `stripUrlsFromMarkdown` never contains `http://`
or `https://` followed by a non-whitespace character (the executable check
`hasUrlOcc` searches every position for such a substring). -/
theorem claim9_no_url_left (cs : List Char) :
    hasUrlOcc (stripUrlsFromMarkdown cs) = false := by
  cases h : hasUrlOcc (stripUrlsFromMarkdown cs) with
  | false => rfl
  | true =>
    exfalso
    have hocc := urlOcc_of_hasUrlOcc h
    rw [stripUrlsFromMarkdown] at hocc
    have hocc2 := urlOcc_infix_closed (trim_infix_self _) hocc
    rw [replaceBareUrls] at hocc2
    exact bareScan_noUrl _ _ le_rfl hocc2

/-- Claim C10, counterexample: the claim says links whose target is not an
absolute http(s) URL are left completely unmodified.  `[http://a](/rel)` has
the relative target `/rel`, yet the bare-URL rule eats the URL inside the
link text together with the rest of the construct, leaving `[`. -/
theorem claim10_relative_counterexample :
    stripUrlsFromMarkdown ("[http://a](/rel)".data) ≠ "[http://a](/rel)".data := by
  decide

/-- Claim C10, amended: a markdown link or image whose whole text (label and
target together) contains no `http://` or `https://` substring — in
particular whose target is relative, an anchor, or a `mailto:` — is left
completely unmodified by the sanitizer's replacement rules. -/
theorem claim10_nonhttp_unmodified :
    (∀ t u, noHttp ('[' :: (t ++ ']' :: '(' :: (u ++ [')']))) = true →
      stripUrlsFromMarkdown ('[' :: (t ++ ']' :: '(' :: (u ++ [')']))) =
        '[' :: (t ++ ']' :: '(' :: (u ++ [')']))) ∧
    (∀ t u, noHttp ('!' :: '[' :: (t ++ ']' :: '(' :: (u ++ [')']))) = true →
      stripUrlsFromMarkdown ('!' :: '[' :: (t ++ ']' :: '(' :: (u ++ [')']))) =
        '!' :: '[' :: (t ++ ']' :: '(' :: (u ++ [')']))) := by
  constructor
  · intro t u h
    rw [strip_eq_trim (noHttp_not_httpSub h)]
    have hsh : t ++ ']' :: '(' :: (u ++ [')']) = (t ++ ']' :: '(' :: u) ++ [')'] := by
      simp
    rw [hsh]
    exact trim_head_last (by decide) (by decide)
  · intro t u h
    rw [strip_eq_trim (noHttp_not_httpSub h)]
    have hsh : ('[' : Char) :: (t ++ ']' :: '(' :: (u ++ [')'])) =
        ('[' :: (t ++ ']' :: '(' :: u)) ++ [')'] := by
      simp
    rw [hsh]
    exact trim_head_last (by decide) (by decide)

/-- Witness for C10 on a relative link and a relative image. -/
theorem claim10_nonhttp_unmodified_witness :
    stripUrlsFromMarkdown ('[' :: ("home".data ++ ']' :: '(' :: ("/idx".data ++ [')']))) =
      '[' :: ("home".data ++ ']' :: '(' :: ("/idx".data ++ [')'])) ∧
    stripUrlsFromMarkdown
      ('!' :: '[' :: ("pic".data ++ ']' :: '(' :: ("./i.png".data ++ [')']))) =
      '!' :: '[' :: ("pic".data ++ ']' :: '(' :: ("./i.png".data ++ [')'])) :=
  ⟨claim10_nonhttp_unmodified.1 "home".data "/idx".data (by decide),
   claim10_nonhttp_unmodified.2 "pic".data "./i.png".data (by decide)⟩

end DeepResearch
